import Mathlib

/-!
Verification of the diff-to-decoration annotation core of the
taylored-vcode extension (function scanAndProcessAllTayloredFiles in
src/extension.ts).  The embedding below mirrors the source: JS numbers
used as line counters become Int, the JS Map objects keyed by line index
or target URI become insertion-ordered association lists, and the
run-collapsing while loop over a hunk becomes a recursion that consumes
a whole same-type run at each step.
-/

namespace TayloredVCode

/-- One diff line, as produced by parse-diff: a type tag (the strings
"add", "del", "normal" in practice, but the field is an arbitrary string
and the code has a fall-through branch for anything else) and the line
text, which the annotation algorithm never reads. -/
structure Change where
  type : String
  content : String
deriving DecidableEq, Repr

/-- One hunk (parse-diff Chunk): old/new starting line numbers and the
ordered list of changes. -/
structure Hunk where
  oldStart : Int
  newStart : Int
  changes : List Change
deriving DecidableEq, Repr

/-- One file entry of a parsed diff (parse-diff File): optional old/new
paths and the hunks. -/
structure DiffFileEntry where
  toPath : Option String
  fromPath : Option String
  chunks : List Hunk
deriving DecidableEq, Repr

/-- One parsed .taylored file: its file name (used as the attribution
label in hover messages) and the parsed diff entries. -/
structure TayloredFile where
  name : String
  files : List DiffFileEntry
deriving DecidableEq, Repr

/-- The payload of one recorded block annotation: the run length of the
collapsed block and the source .taylored file name.  Together with the
line-index key this determines the DecorationOptions object the code
builds (range on that line plus the hover text). -/
structure Decoration where
  blockLength : Nat
  source : String
deriving DecidableEq, Repr

/-- A JS Map from zero-based line index to Decoration, modelled as an
insertion-ordered association list (the code only ever inserts at
absent keys, so append models Map.set exactly). -/
abbrev DecoMap := List (Int × Decoration)

/-- The adds map and the removes map kept per target file. -/
abbrev FilePair := DecoMap × DecoMap

/-- The allFileDecorations map: target URI string to its two maps. -/
abbrev FileMap := List (String × FilePair)

/-- JS Map.get / Map.has on an insertion-ordered association list. -/
def assocGet {α β : Type} [DecidableEq α] : List (α × β) → α → Option β
  | [], _ => none
  | p :: ps, k => if p.1 = k then some p.2 else assocGet ps k

/-- JS Map.set at a key already known to be present: replaces the value
in place, preserving insertion order. -/
def assocReplace {α β : Type} [DecidableEq α] (m : List (α × β)) (k : α) (v : β) :
    List (α × β) :=
  m.map (fun p => if p.1 = k then (k, v) else p)

/-- The guarded insertion the code performs on a decoration map: if the
key is already present do nothing (first-wins dedup), otherwise append
the new binding (Map.set at an absent key). -/
def insertIfAbsent (m : DecoMap) (k : Int) (v : Decoration) : DecoMap :=
  if (assocGet m k).isSome then m else m ++ [(k, v)]

/-- Fold a list of attempted insertions over a decoration map. -/
def foldIns (m : DecoMap) (L : List (Int × Decoration)) : DecoMap :=
  L.foldl (fun acc kv => insertIfAbsent acc kv.1 kv.2) m

theorem assocGet_append {α β : Type} [DecidableEq α] (m1 m2 : List (α × β)) (k : α) :
    assocGet (m1 ++ m2) k = (assocGet m1 k).or (assocGet m2 k) := by
  induction m1 with
  | nil => simp [assocGet]
  | cons p ps ih =>
    by_cases h : p.1 = k
    · simp [assocGet, h]
    · simp [assocGet, h, ih]

theorem assocGet_eq_none_iff {α β : Type} [DecidableEq α] (m : List (α × β)) (k : α) :
    assocGet m k = none ↔ ∀ p ∈ m, p.1 ≠ k := by
  induction m with
  | nil => simp [assocGet]
  | cons p ps ih =>
    by_cases h : p.1 = k
    · simp [assocGet, h]
    · simp [assocGet, h, ih]

theorem assocGet_isSome_iff {α β : Type} [DecidableEq α] (m : List (α × β)) (k : α) :
    (assocGet m k).isSome = true ↔ k ∈ m.map Prod.fst := by
  induction m with
  | nil => simp [assocGet]
  | cons p ps ih =>
    by_cases h : p.1 = k
    · simp [assocGet, h]
    · simp [assocGet, h, ih, Ne.symm h]

theorem assocGet_insertIfAbsent (m : DecoMap) (k0 k : Int) (v : Decoration) :
    assocGet (insertIfAbsent m k0 v) k =
      (assocGet m k).or (if k0 = k then some v else none) := by
  unfold insertIfAbsent
  by_cases hpres : (assocGet m k0).isSome
  · rw [if_pos hpres]
    by_cases hk : k0 = k
    · subst hk
      rcases Option.isSome_iff_exists.mp hpres with ⟨u, hu⟩
      simp [hu]
    · simp [hk, Option.or_none]
  · rw [if_neg hpres]
    rw [assocGet_append]
    by_cases hk : k0 = k
    · subst hk
      simp [assocGet]
    · simp [assocGet, hk]

theorem assocGet_foldIns (L : List (Int × Decoration)) (m : DecoMap) (k : Int) :
    assocGet (foldIns m L) k = (assocGet m k).or (assocGet L k) := by
  induction L generalizing m with
  | nil => simp [foldIns, assocGet, Option.or_none]
  | cons kv L ih =>
    show assocGet (foldIns (insertIfAbsent m kv.1 kv.2) L) k = _
    rw [ih, assocGet_insertIfAbsent, Option.or_assoc]
    congr 1
    by_cases hk : kv.1 = k
    · simp [assocGet, hk]
    · simp [assocGet, hk]

theorem foldIns_append (m : DecoMap) (L1 L2 : List (Int × Decoration)) :
    foldIns m (L1 ++ L2) = foldIns (foldIns m L1) L2 := by
  simp [foldIns]

theorem mem_foldIns {p : Int × Decoration} (L : List (Int × Decoration)) (m : DecoMap) :
    p ∈ foldIns m L → p ∈ m ∨ p ∈ L := by
  induction L generalizing m with
  | nil => intro h; exact Or.inl h
  | cons kv L ih =>
    intro h
    rcases ih (insertIfAbsent m kv.1 kv.2) h with h1 | h1
    · unfold insertIfAbsent at h1
      split at h1
      · exact Or.inl h1
      · rcases List.mem_append.mp h1 with h2 | h2
        · exact Or.inl h2
        · right
          simp only [List.mem_singleton] at h2
          simp [h2]
    · exact Or.inr (List.mem_cons_of_mem _ h1)

/-- The predicate of the inner add-run loop: change.type === "add". -/
def isAddType (c : Change) : Bool := c.type = "add"

/-- The predicate of the inner delete-run loop: change.type === "del". -/
def isDelType (c : Change) : Bool := c.type = "del"

/-- change.type === "normal": a context line. -/
def isNormalType (c : Change) : Bool := c.type = "normal"

/-- The state after walking the changes of one hunk: the two decoration
maps of the target file and the final values of the two line counters. -/
structure WalkResult where
  adds : DecoMap
  removes : DecoMap
  newC : Int
  oldC : Int
deriving DecidableEq, Repr

/-- The while loop over chunk.changes (extension.ts lines 427-484).
Each step consumes a whole same-type run: an add run captures the
new-line counter before the run (anchor = counter - 1), counts the run
into blockLen while advancing only the new counter, and records one
added annotation at the anchor when the anchor is nonnegative, the run
nonempty and the key not already taken; a delete run is symmetric with
the old counter advanced and the anchor still taken from the new
counter captured before the run; a context line advances both counters;
any other change type is skipped without touching counters or maps. -/
def processChanges (label : String) (cs : List Change) (newC oldC : Int)
    (adds removes : DecoMap) : WalkResult :=
  match cs with
  | [] => ⟨adds, removes, newC, oldC⟩
  | c :: rest =>
    if h1 : c.type = "add" then
      let blockLen : Nat := (List.takeWhile isAddType (c :: rest)).length
      let anchor : Int := newC - 1
      let adds' :=
        if 0 ≤ anchor ∧ 0 < blockLen then insertIfAbsent adds anchor ⟨blockLen, label⟩
        else adds
      processChanges label (List.dropWhile isAddType (c :: rest)) (newC + blockLen) oldC adds' removes
    else if h2 : c.type = "del" then
      let blockLen : Nat := (List.takeWhile isDelType (c :: rest)).length
      let anchor : Int := newC - 1
      let removes' :=
        if 0 ≤ anchor ∧ 0 < blockLen then insertIfAbsent removes anchor ⟨blockLen, label⟩
        else removes
      processChanges label (List.dropWhile isDelType (c :: rest)) newC (oldC + blockLen) adds removes'
    else if h3 : c.type = "normal" then
      processChanges label rest (newC + 1) (oldC + 1) adds removes
    else
      processChanges label rest newC oldC adds removes
termination_by cs.length
decreasing_by
  · have hpos : isAddType c = true := by simp [isAddType, h1]
    have := List.Sublist.length_le (List.dropWhile_sublist (l := rest) isAddType)
    rw [List.dropWhile_cons_of_pos hpos]
    simp only [List.length_cons]
    omega
  · have hpos : isDelType c = true := by simp [isDelType, h2]
    have := List.Sublist.length_le (List.dropWhile_sublist (l := rest) isDelType)
    rw [List.dropWhile_cons_of_pos hpos]
    simp only [List.length_cons]
    omega
  · simp
  · simp

/-- The per-change counter bookkeeping of the loop, one change at a
time: a context line advances both counters, an add only the new one, a
delete only the old one, anything else neither.  Returns
(newCounter, oldCounter). -/
def countersAfter (cs : List Change) (newC oldC : Int) : Int × Int :=
  match cs with
  | [] => (newC, oldC)
  | c :: rest =>
    if c.type = "add" then countersAfter rest (newC + 1) oldC
    else if c.type = "del" then countersAfter rest newC (oldC + 1)
    else if c.type = "normal" then countersAfter rest (newC + 1) (oldC + 1)
    else countersAfter rest newC oldC

/-- The ordered list of added insertion entries the walk attempts,
with the same run structure and anchor arithmetic as processChanges but
independent of the accumulated maps. -/
def addAttempts (label : String) (cs : List Change) (newC : Int) :
    List (Int × Decoration) :=
  match cs with
  | [] => []
  | c :: rest =>
    if h1 : c.type = "add" then
      let blockLen : Nat := (List.takeWhile isAddType (c :: rest)).length
      (if 0 ≤ newC - 1 ∧ 0 < blockLen then [(newC - 1, (⟨blockLen, label⟩ : Decoration))] else []) ++
        addAttempts label (List.dropWhile isAddType (c :: rest)) (newC + blockLen)
    else if h2 : c.type = "del" then
      addAttempts label (List.dropWhile isDelType (c :: rest)) newC
    else if h3 : c.type = "normal" then
      addAttempts label rest (newC + 1)
    else
      addAttempts label rest newC
termination_by cs.length
decreasing_by
  · have hpos : isAddType c = true := by simp [isAddType, h1]
    have := List.Sublist.length_le (List.dropWhile_sublist (l := rest) isAddType)
    rw [List.dropWhile_cons_of_pos hpos]
    simp only [List.length_cons]
    omega
  · have hpos : isDelType c = true := by simp [isDelType, h2]
    have := List.Sublist.length_le (List.dropWhile_sublist (l := rest) isDelType)
    rw [List.dropWhile_cons_of_pos hpos]
    simp only [List.length_cons]
    omega
  · simp
  · simp

/-- The ordered list of removed insertion entries the walk
attempts. -/
def remAttempts (label : String) (cs : List Change) (newC : Int) :
    List (Int × Decoration) :=
  match cs with
  | [] => []
  | c :: rest =>
    if h1 : c.type = "add" then
      remAttempts label (List.dropWhile isAddType (c :: rest))
        (newC + (List.takeWhile isAddType (c :: rest)).length)
    else if h2 : c.type = "del" then
      let blockLen : Nat := (List.takeWhile isDelType (c :: rest)).length
      (if 0 ≤ newC - 1 ∧ 0 < blockLen then [(newC - 1, (⟨blockLen, label⟩ : Decoration))] else []) ++
        remAttempts label (List.dropWhile isDelType (c :: rest)) newC
    else if h3 : c.type = "normal" then
      remAttempts label rest (newC + 1)
    else
      remAttempts label rest newC
termination_by cs.length
decreasing_by
  · have hpos : isAddType c = true := by simp [isAddType, h1]
    have := List.Sublist.length_le (List.dropWhile_sublist (l := rest) isAddType)
    rw [List.dropWhile_cons_of_pos hpos]
    simp only [List.length_cons]
    omega
  · have hpos : isDelType c = true := by simp [isDelType, h2]
    have := List.Sublist.length_le (List.dropWhile_sublist (l := rest) isDelType)
    rw [List.dropWhile_cons_of_pos hpos]
    simp only [List.length_cons]
    omega
  · simp
  · simp

theorem countersAfter_dropAdd (cs : List Change) (newC oldC : Int) :
    countersAfter cs newC oldC =
      countersAfter (cs.dropWhile isAddType)
        (newC + ((cs.takeWhile isAddType).length : Int)) oldC := by
  induction cs generalizing newC with
  | nil => simp [List.takeWhile, List.dropWhile]
  | cons c rest ih =>
    by_cases h : c.type = "add"
    · have hpos : isAddType c = true := by simp [isAddType, h]
      rw [List.dropWhile_cons_of_pos hpos, List.takeWhile_cons_of_pos hpos]
      rw [countersAfter, if_pos h, ih]
      congr 1
      simp only [List.length_cons]
      push_cast
      ring
    · have hneg : ¬ (isAddType c = true) := by simp [isAddType, h]
      rw [List.dropWhile_cons_of_neg hneg, List.takeWhile_cons_of_neg hneg]
      simp

theorem countersAfter_dropDel (cs : List Change) (newC oldC : Int) :
    countersAfter cs newC oldC =
      countersAfter (cs.dropWhile isDelType) newC
        (oldC + ((cs.takeWhile isDelType).length : Int)) := by
  induction cs generalizing oldC with
  | nil => simp [List.takeWhile, List.dropWhile]
  | cons c rest ih =>
    by_cases h : c.type = "del"
    · have hpos : isDelType c = true := by simp [isDelType, h]
      have hnadd : ¬ (c.type = "add") := by rw [h]; intro hc; exact absurd hc (by decide)
      rw [List.dropWhile_cons_of_pos hpos, List.takeWhile_cons_of_pos hpos]
      rw [countersAfter, if_neg hnadd, if_pos h, ih]
      congr 1
      simp only [List.length_cons]
      push_cast
      ring
    · have hneg : ¬ (isDelType c = true) := by simp [isDelType, h]
      rw [List.dropWhile_cons_of_neg hneg, List.takeWhile_cons_of_neg hneg]
      simp

theorem foldIns_guard (a : DecoMap) (g : Prop) [Decidable g] (k : Int) (v : Decoration) :
    foldIns a (if g then [(k, v)] else []) = if g then insertIfAbsent a k v else a := by
  by_cases hg : g <;> simp [foldIns, hg]

theorem processChanges_nil (label : String) (n o : Int) (a r : DecoMap) :
    processChanges label [] n o a r = ⟨a, r, n, o⟩ := by
  simp [processChanges]

theorem processChanges_cons_add (label : String) {c : Change} (rest : List Change)
    (n o : Int) (a r : DecoMap) (h1 : c.type = "add") :
    processChanges label (c :: rest) n o a r =
      processChanges label (List.dropWhile isAddType (c :: rest))
        (n + ((List.takeWhile isAddType (c :: rest)).length : Int)) o
        (if 0 ≤ n - 1 ∧ 0 < (List.takeWhile isAddType (c :: rest)).length
         then insertIfAbsent a (n - 1) ⟨(List.takeWhile isAddType (c :: rest)).length, label⟩
         else a) r := by
  conv_lhs => simp only [processChanges]
  rw [dif_pos h1]

theorem processChanges_cons_del (label : String) {c : Change} (rest : List Change)
    (n o : Int) (a r : DecoMap) (h2 : c.type = "del") :
    processChanges label (c :: rest) n o a r =
      processChanges label (List.dropWhile isDelType (c :: rest)) n
        (o + ((List.takeWhile isDelType (c :: rest)).length : Int)) a
        (if 0 ≤ n - 1 ∧ 0 < (List.takeWhile isDelType (c :: rest)).length
         then insertIfAbsent r (n - 1) ⟨(List.takeWhile isDelType (c :: rest)).length, label⟩
         else r) := by
  have h1 : ¬ (c.type = "add") := by rw [h2]; intro hc; exact absurd hc (by decide)
  conv_lhs => simp only [processChanges]
  rw [dif_neg h1, dif_pos h2]

theorem processChanges_cons_normal (label : String) {c : Change} (rest : List Change)
    (n o : Int) (a r : DecoMap) (h3 : c.type = "normal") :
    processChanges label (c :: rest) n o a r =
      processChanges label rest (n + 1) (o + 1) a r := by
  have h1 : ¬ (c.type = "add") := by rw [h3]; intro hc; exact absurd hc (by decide)
  have h2 : ¬ (c.type = "del") := by rw [h3]; intro hc; exact absurd hc (by decide)
  conv_lhs => simp only [processChanges]
  rw [dif_neg h1, dif_neg h2, dif_pos h3]

theorem processChanges_cons_other (label : String) {c : Change} (rest : List Change)
    (n o : Int) (a r : DecoMap) (h1 : ¬ (c.type = "add")) (h2 : ¬ (c.type = "del"))
    (h3 : ¬ (c.type = "normal")) :
    processChanges label (c :: rest) n o a r = processChanges label rest n o a r := by
  conv_lhs => simp only [processChanges]
  rw [dif_neg h1, dif_neg h2, dif_neg h3]

theorem addAttempts_nil (label : String) (n : Int) : addAttempts label [] n = [] := by
  simp [addAttempts]

theorem addAttempts_cons_add (label : String) {c : Change} (rest : List Change) (n : Int)
    (h1 : c.type = "add") :
    addAttempts label (c :: rest) n =
      (if 0 ≤ n - 1 ∧ 0 < (List.takeWhile isAddType (c :: rest)).length
       then [(n - 1, (⟨(List.takeWhile isAddType (c :: rest)).length, label⟩ : Decoration))]
       else []) ++
        addAttempts label (List.dropWhile isAddType (c :: rest))
          (n + ((List.takeWhile isAddType (c :: rest)).length : Int)) := by
  conv_lhs => simp only [addAttempts]
  rw [dif_pos h1]

theorem addAttempts_cons_del (label : String) {c : Change} (rest : List Change) (n : Int)
    (h2 : c.type = "del") :
    addAttempts label (c :: rest) n =
      addAttempts label (List.dropWhile isDelType (c :: rest)) n := by
  have h1 : ¬ (c.type = "add") := by rw [h2]; intro hc; exact absurd hc (by decide)
  conv_lhs => simp only [addAttempts]
  rw [dif_neg h1, dif_pos h2]

theorem addAttempts_cons_normal (label : String) {c : Change} (rest : List Change) (n : Int)
    (h3 : c.type = "normal") :
    addAttempts label (c :: rest) n = addAttempts label rest (n + 1) := by
  have h1 : ¬ (c.type = "add") := by rw [h3]; intro hc; exact absurd hc (by decide)
  have h2 : ¬ (c.type = "del") := by rw [h3]; intro hc; exact absurd hc (by decide)
  conv_lhs => simp only [addAttempts]
  rw [dif_neg h1, dif_neg h2, dif_pos h3]

theorem addAttempts_cons_other (label : String) {c : Change} (rest : List Change) (n : Int)
    (h1 : ¬ (c.type = "add")) (h2 : ¬ (c.type = "del")) (h3 : ¬ (c.type = "normal")) :
    addAttempts label (c :: rest) n = addAttempts label rest n := by
  conv_lhs => simp only [addAttempts]
  rw [dif_neg h1, dif_neg h2, dif_neg h3]

theorem remAttempts_nil (label : String) (n : Int) : remAttempts label [] n = [] := by
  simp [remAttempts]

theorem remAttempts_cons_add (label : String) {c : Change} (rest : List Change) (n : Int)
    (h1 : c.type = "add") :
    remAttempts label (c :: rest) n =
      remAttempts label (List.dropWhile isAddType (c :: rest))
        (n + ((List.takeWhile isAddType (c :: rest)).length : Int)) := by
  conv_lhs => simp only [remAttempts]
  rw [dif_pos h1]

theorem remAttempts_cons_del (label : String) {c : Change} (rest : List Change) (n : Int)
    (h2 : c.type = "del") :
    remAttempts label (c :: rest) n =
      (if 0 ≤ n - 1 ∧ 0 < (List.takeWhile isDelType (c :: rest)).length
       then [(n - 1, (⟨(List.takeWhile isDelType (c :: rest)).length, label⟩ : Decoration))]
       else []) ++
        remAttempts label (List.dropWhile isDelType (c :: rest)) n := by
  have h1 : ¬ (c.type = "add") := by rw [h2]; intro hc; exact absurd hc (by decide)
  conv_lhs => simp only [remAttempts]
  rw [dif_neg h1, dif_pos h2]

theorem remAttempts_cons_normal (label : String) {c : Change} (rest : List Change) (n : Int)
    (h3 : c.type = "normal") :
    remAttempts label (c :: rest) n = remAttempts label rest (n + 1) := by
  have h1 : ¬ (c.type = "add") := by rw [h3]; intro hc; exact absurd hc (by decide)
  have h2 : ¬ (c.type = "del") := by rw [h3]; intro hc; exact absurd hc (by decide)
  conv_lhs => simp only [remAttempts]
  rw [dif_neg h1, dif_neg h2, dif_pos h3]

theorem remAttempts_cons_other (label : String) {c : Change} (rest : List Change) (n : Int)
    (h1 : ¬ (c.type = "add")) (h2 : ¬ (c.type = "del")) (h3 : ¬ (c.type = "normal")) :
    remAttempts label (c :: rest) n = remAttempts label rest n := by
  conv_lhs => simp only [remAttempts]
  rw [dif_neg h1, dif_neg h2, dif_neg h3]

/-- The walk of one hunk equals: fold the attempted added insertions
over the adds map, fold the attempted removed insertions over the
removes map, and run the per-change counter bookkeeping. -/
theorem processChanges_decomp (label : String) (cs : List Change) (n o : Int)
    (a r : DecoMap) :
    processChanges label cs n o a r =
      ⟨foldIns a (addAttempts label cs n), foldIns r (remAttempts label cs n),
       (countersAfter cs n o).1, (countersAfter cs n o).2⟩ := by
  have H : ∀ (N : Nat) (cs : List Change) (n o : Int) (a r : DecoMap), cs.length ≤ N →
      processChanges label cs n o a r =
        ⟨foldIns a (addAttempts label cs n), foldIns r (remAttempts label cs n),
         (countersAfter cs n o).1, (countersAfter cs n o).2⟩ := by
    intro N
    induction N with
    | zero =>
      intro cs n o a r hlen
      have hnil : cs = [] := List.length_eq_zero.mp (Nat.le_zero.mp hlen)
      subst hnil
      simp [processChanges_nil, addAttempts_nil, remAttempts_nil, countersAfter, foldIns]
    | succ N IH =>
      intro cs n o a r hlen
      match cs with
      | [] =>
        simp [processChanges_nil, addAttempts_nil, remAttempts_nil, countersAfter, foldIns]
      | c :: rest =>
        by_cases h1 : c.type = "add"
        · have hpos : isAddType c = true := by simp [isAddType, h1]
          have hdrop : List.dropWhile isAddType (c :: rest) = List.dropWhile isAddType rest :=
            List.dropWhile_cons_of_pos hpos
          have hlt : (List.dropWhile isAddType (c :: rest)).length ≤ N := by
            rw [hdrop]
            have := List.Sublist.length_le (List.dropWhile_sublist (l := rest) isAddType)
            simp only [List.length_cons] at hlen
            omega
          rw [processChanges_cons_add label rest n o a r h1,
            IH _ _ _ _ _ hlt,
            addAttempts_cons_add label rest n h1,
            remAttempts_cons_add label rest n h1,
            countersAfter_dropAdd (c :: rest) n o,
            foldIns_append, foldIns_guard]
        · by_cases h2 : c.type = "del"
          · have hpos : isDelType c = true := by simp [isDelType, h2]
            have hdrop : List.dropWhile isDelType (c :: rest) = List.dropWhile isDelType rest :=
              List.dropWhile_cons_of_pos hpos
            have hlt : (List.dropWhile isDelType (c :: rest)).length ≤ N := by
              rw [hdrop]
              have := List.Sublist.length_le (List.dropWhile_sublist (l := rest) isDelType)
              simp only [List.length_cons] at hlen
              omega
            rw [processChanges_cons_del label rest n o a r h2,
              IH _ _ _ _ _ hlt,
              addAttempts_cons_del label rest n h2,
              remAttempts_cons_del label rest n h2,
              countersAfter_dropDel (c :: rest) n o,
              foldIns_append, foldIns_guard]
          · have hlt : rest.length ≤ N := by
              simp only [List.length_cons] at hlen
              omega
            by_cases h3 : c.type = "normal"
            · rw [processChanges_cons_normal label rest n o a r h3,
                IH _ _ _ _ _ hlt,
                addAttempts_cons_normal label rest n h3,
                remAttempts_cons_normal label rest n h3]
              have hc : countersAfter (c :: rest) n o = countersAfter rest (n + 1) (o + 1) := by
                rw [countersAfter, if_neg h1, if_neg h2, if_pos h3]
              rw [hc]
            · rw [processChanges_cons_other label rest n o a r h1 h2 h3,
                IH _ _ _ _ _ hlt,
                addAttempts_cons_other label rest n h1 h2 h3,
                remAttempts_cons_other label rest n h1 h2 h3]
              have hc : countersAfter (c :: rest) n o = countersAfter rest n o := by
                rw [countersAfter, if_neg h1, if_neg h2, if_neg h3]
              rw [hc]
  exact H cs.length cs n o a r le_rfl

/-- Processing of one chunk (the forEach body): walk its changes with
counters initialised from the chunk header, threading the decoration
maps of the target file. -/
def processChunk (label : String) (acc : FilePair) (h : Hunk) : FilePair :=
  let r := processChanges label h.changes h.newStart h.oldStart acc.1 acc.2
  (r.adds, r.removes)

/-- All chunks of one diff file entry, in order. -/
def processChunks (label : String) (acc : FilePair) (hs : List Hunk) : FilePair :=
  hs.foldl (processChunk label) acc

/-- JS truthiness of an optional string: undefined and the empty string
are falsy. -/
def jsTruthy : Option String → Bool
  | none => false
  | some s => !(s == "")

/-- diffFile.to with fallback to diffFile.from under JS truthiness. -/
def rawTarget (e : DiffFileEntry) : Option String :=
  if jsTruthy e.toPath then e.toPath else e.fromPath

/-- The guard on line 407: skip the entry when the raw target is falsy
or the /dev/null sentinel. -/
def effTarget (e : DiffFileEntry) : Option String :=
  match rawTarget e with
  | none => none
  | some s => if s = "" ∨ s = "/dev/null" then none else some s

/-- replace of the leading a/ or b/ diff path marker: when the first
character is a or b and the second is a slash, both are removed,
otherwise the path is unchanged (the regex anchored at the start
matches at most once). -/
def cleanPath (s : String) : String :=
  match s.data with
  | a :: b :: rest => if (a = 'a' ∨ a = 'b') ∧ b = '/' then ⟨rest⟩ else s
  | _ => s

/-- The resolved target URI of an entry, given the external
findFileInWorkspace collaborator as a function. -/
def entryTarget (resolve : String → Option String) (e : DiffFileEntry) : Option String :=
  match effTarget e with
  | none => none
  | some raw => resolve (cleanPath raw)

/-- Processing of one diff file entry against the global
allFileDecorations map: skip unresolved or sentinel targets, create the
per-target pair when absent, then fold the chunks into it. -/
def processEntry (resolve : String → Option String) (label : String)
    (fm : FileMap) (e : DiffFileEntry) : FileMap :=
  match effTarget e with
  | none => fm
  | some raw =>
    match resolve (cleanPath raw) with
    | none => fm
    | some uri =>
      let fm1 := if (assocGet fm uri).isSome then fm else fm ++ [(uri, ([], []))]
      let cur := (assocGet fm1 uri).getD ([], [])
      assocReplace fm1 uri (processChunks label cur e.chunks)

/-- Processing of one .taylored file: its parsed entries in order, with
the file name as attribution label. -/
def processTayloredFile (resolve : String → Option String) (fm : FileMap)
    (tf : TayloredFile) : FileMap :=
  tf.files.foldl (processEntry resolve tf.name) fm

/-- The whole scan over the parsed .taylored files: the Annotator.  The
reading of the .taylored directory, the diff parsing and the path
resolution are the external collaborators; inputs is the parsed list in
directory order and resolve stands for findFileInWorkspace. -/
def scanAnnotate (resolve : String → Option String) (inputs : List TayloredFile) : FileMap :=
  inputs.foldl (processTayloredFile resolve) []

/-- The annotation pair recorded for one target URI (empty when the
scan never touched that target). -/
def annAt (fm : FileMap) (uri : String) : FilePair :=
  (assocGet fm uri).getD ([], [])

/-- The added insertion attempts of one hunk. -/
def hunkAddAttempts (label : String) (h : Hunk) : List (Int × Decoration) :=
  addAttempts label h.changes h.newStart

/-- The removed insertion attempts of one hunk. -/
def hunkRemAttempts (label : String) (h : Hunk) : List (Int × Decoration) :=
  remAttempts label h.changes h.newStart

/-- The added insertion attempts of one entry, across its
chunks in order. -/
def entryAddAttempts (label : String) (e : DiffFileEntry) : List (Int × Decoration) :=
  (e.chunks.map (hunkAddAttempts label)).flatten

/-- The removed insertion attempts of one entry. -/
def entryRemAttempts (label : String) (e : DiffFileEntry) : List (Int × Decoration) :=
  (e.chunks.map (hunkRemAttempts label)).flatten

/-- All added insertion attempts aimed at one resolved
target URI, across all .taylored files and entries in processing
order. -/
def fileAddAttempts (resolve : String → Option String) (inputs : List TayloredFile)
    (uri : String) : List (Int × Decoration) :=
  (inputs.map (fun tf =>
    ((tf.files.filter (fun e => entryTarget resolve e = some uri)).map
      (entryAddAttempts tf.name)).flatten)).flatten

/-- All removed insertion attempts aimed at one resolved
target URI. -/
def fileRemAttempts (resolve : String → Option String) (inputs : List TayloredFile)
    (uri : String) : List (Int × Decoration) :=
  (inputs.map (fun tf =>
    ((tf.files.filter (fun e => entryTarget resolve e = some uri)).map
      (entryRemAttempts tf.name)).flatten)).flatten

theorem processChunk_decomp (label : String) (acc : FilePair) (h : Hunk) :
    processChunk label acc h =
      (foldIns acc.1 (hunkAddAttempts label h), foldIns acc.2 (hunkRemAttempts label h)) := by
  unfold processChunk hunkAddAttempts hunkRemAttempts
  rw [processChanges_decomp]

theorem processChunks_decomp (label : String) (acc : FilePair) (hs : List Hunk) :
    processChunks label acc hs =
      (foldIns acc.1 ((hs.map (hunkAddAttempts label)).flatten),
       foldIns acc.2 ((hs.map (hunkRemAttempts label)).flatten)) := by
  induction hs generalizing acc with
  | nil => simp [processChunks, foldIns]
  | cons h hs ih =>
    show processChunks label (processChunk label acc h) hs = _
    rw [ih, processChunk_decomp]
    simp [foldIns_append]

theorem assocReplace_cons {α β : Type} [DecidableEq α] (p : α × β) (ps : List (α × β))
    (k : α) (v : β) :
    assocReplace (p :: ps) k v = (if p.1 = k then (k, v) else p) :: assocReplace ps k v := rfl

theorem assocGet_assocReplace_self {α β : Type} [DecidableEq α] (m : List (α × β))
    (k : α) (v : β) :
    assocGet (assocReplace m k v) k = (assocGet m k).map (fun _ => v) := by
  induction m with
  | nil => simp [assocGet, assocReplace]
  | cons p ps ih =>
    rw [assocReplace_cons]
    by_cases h : p.1 = k
    · simp [assocGet, h]
    · simp [assocGet, h, ih]

theorem assocGet_assocReplace_ne {α β : Type} [DecidableEq α] (m : List (α × β))
    {k0 k : α} (v : β) (hne : k0 ≠ k) :
    assocGet (assocReplace m k0 v) k = assocGet m k := by
  induction m with
  | nil => simp [assocGet, assocReplace]
  | cons p ps ih =>
    rw [assocReplace_cons]
    by_cases h : p.1 = k0
    · simp [assocGet, h, hne, ih]
    · simp [assocGet, h, ih]

theorem annAt_processEntry (resolve : String → Option String) (label : String)
    (fm : FileMap) (e : DiffFileEntry) (uri : String) :
    annAt (processEntry resolve label fm e) uri =
      if entryTarget resolve e = some uri then
        (foldIns (annAt fm uri).1 (entryAddAttempts label e),
         foldIns (annAt fm uri).2 (entryRemAttempts label e))
      else annAt fm uri := by
  unfold processEntry entryTarget
  cases heff : effTarget e with
  | none => simp [heff]
  | some raw =>
    cases hres : resolve (cleanPath raw) with
    | none => simp [heff, hres]
    | some uri0 =>
      simp only [heff, hres]
      by_cases huri : uri0 = uri
      · subst huri
        rw [if_pos rfl]
        have hcur :
            (assocGet (if (assocGet fm uri0).isSome then fm else fm ++ [(uri0, ([], []))])
              uri0).getD ([], []) = annAt fm uri0 := by
          by_cases hpres : (assocGet fm uri0).isSome
          · rw [if_pos hpres]; rfl
          · rw [if_neg hpres, assocGet_append]
            rw [Option.not_isSome_iff_eq_none] at hpres
            simp [hpres, assocGet, annAt]
        have hpres1 :
            (assocGet (if (assocGet fm uri0).isSome then fm else fm ++ [(uri0, ([], []))])
              uri0).isSome := by
          by_cases hpres : (assocGet fm uri0).isSome
          · rw [if_pos hpres]; exact hpres
          · rw [if_neg hpres, assocGet_append]
            rw [Option.not_isSome_iff_eq_none] at hpres
            simp [hpres, assocGet]
        unfold annAt
        rw [assocGet_assocReplace_self]
        rcases Option.isSome_iff_exists.mp hpres1 with ⟨pr, hpr⟩
        rw [hpr]
        simp only [Option.map_some, Option.getD_some]
        rw [processChunks_decomp]
        have : pr = annAt fm uri0 := by
          rw [← hcur, hpr]
          rfl
        rw [this]
        rfl
      · rw [if_neg (fun hc => huri (Option.some.inj hc))]
        unfold annAt
        rw [assocGet_assocReplace_ne _ _ huri]
        by_cases hpres : (assocGet fm uri0).isSome
        · rw [if_pos hpres]
        · rw [if_neg hpres, assocGet_append]
          simp [assocGet, huri, Option.or_none]

theorem annAt_foldl_entries (resolve : String → Option String) (label : String)
    (es : List DiffFileEntry) (fm : FileMap) (uri : String) :
    annAt (es.foldl (processEntry resolve label) fm) uri =
      (foldIns (annAt fm uri).1
        (((es.filter (fun e => entryTarget resolve e = some uri)).map
          (entryAddAttempts label)).flatten),
       foldIns (annAt fm uri).2
        (((es.filter (fun e => entryTarget resolve e = some uri)).map
          (entryRemAttempts label)).flatten)) := by
  induction es generalizing fm with
  | nil => simp [foldIns]
  | cons e es ih =>
    show annAt (es.foldl (processEntry resolve label) (processEntry resolve label fm e)) uri = _
    rw [ih, annAt_processEntry]
    by_cases h : entryTarget resolve e = some uri
    · rw [if_pos h]
      simp only [List.filter_cons, h]
      simp [foldIns_append]
    · rw [if_neg h]
      simp only [List.filter_cons]
      rw [if_neg (by simpa using h)]

theorem annAt_foldl_files (resolve : String → Option String)
    (tfs : List TayloredFile) (fm : FileMap) (uri : String) :
    annAt (tfs.foldl (processTayloredFile resolve) fm) uri =
      (foldIns (annAt fm uri).1 (fileAddAttempts resolve tfs uri),
       foldIns (annAt fm uri).2 (fileRemAttempts resolve tfs uri)) := by
  induction tfs generalizing fm with
  | nil => simp [fileAddAttempts, fileRemAttempts, foldIns]
  | cons tf tfs ih =>
    show annAt (tfs.foldl (processTayloredFile resolve) (processTayloredFile resolve fm tf)) uri = _
    rw [ih]
    unfold processTayloredFile
    rw [annAt_foldl_entries]
    simp [fileAddAttempts, fileRemAttempts, foldIns_append]

/-- The final annotation pair of any target URI is the first-wins fold,
from empty maps, of every insertion attempt aimed at that URI across
the whole input, in processing order. -/
theorem annAt_scanAnnotate (resolve : String → Option String)
    (inputs : List TayloredFile) (uri : String) :
    annAt (scanAnnotate resolve inputs) uri =
      (foldIns [] (fileAddAttempts resolve inputs uri),
       foldIns [] (fileRemAttempts resolve inputs uri)) := by
  unfold scanAnnotate
  rw [annAt_foldl_files]
  rfl

/-- Number of bindings for one key in a decoration map. -/
def keyCount (m : DecoMap) (k : Int) : Nat :=
  m.countP (fun p => decide (p.1 = k))

theorem keyCount_insertIfAbsent_le (m : DecoMap) (k0 k : Int) (v : Decoration)
    (h : keyCount m k ≤ 1) : keyCount (insertIfAbsent m k0 v) k ≤ 1 := by
  unfold insertIfAbsent
  by_cases hpres : (assocGet m k0).isSome
  · rw [if_pos hpres]; exact h
  · rw [if_neg hpres]
    unfold keyCount at h ⊢
    rw [List.countP_append]
    by_cases hk : k0 = k
    · subst hk
      have h0 : m.countP (fun p => decide (p.1 = k0)) = 0 := by
        rw [Option.not_isSome_iff_eq_none] at hpres
        rw [List.countP_eq_zero]
        intro p hp
        simpa using (assocGet_eq_none_iff m k0).mp hpres p hp
      simp [h0, List.countP_cons]
    · simp [List.countP_cons, hk]
      omega

theorem keyCount_foldIns_le (L : List (Int × Decoration)) (m : DecoMap) (k : Int)
    (h : keyCount m k ≤ 1) : keyCount (foldIns m L) k ≤ 1 := by
  induction L generalizing m with
  | nil => exact h
  | cons kv L ih => exact ih _ (keyCount_insertIfAbsent_le _ _ _ _ h)

theorem assocGet_eq_none_iff_keys {α β : Type} [DecidableEq α] (m : List (α × β)) (k : α) :
    assocGet m k = none ↔ k ∉ m.map Prod.fst := by
  rw [assocGet_eq_none_iff]
  constructor
  · intro h hmem
    rcases List.mem_map.mp hmem with ⟨p, hp, hpk⟩
    exact h p hp hpk
  · intro h p hp hpk
    exact h (List.mem_map.mpr ⟨p, hp, hpk⟩)

theorem assocGet_flatten_perm {γ : Type} (f : γ → List (Int × Decoration))
    {hs hs' : List γ} (hp : hs.Perm hs') :
    hs.Pairwise (fun x y => ∀ k, k ∈ (f x).map Prod.fst → k ∉ (f y).map Prod.fst) →
      ∀ k, assocGet (hs.map f).flatten k = assocGet (hs'.map f).flatten k := by
  have hsymm : ∀ {x y : γ},
      (∀ k, k ∈ (f x).map Prod.fst → k ∉ (f y).map Prod.fst) →
      (∀ k, k ∈ (f y).map Prod.fst → k ∉ (f x).map Prod.fst) :=
    fun h k hky hkx => h k hkx hky
  induction hp with
  | nil => intro _ k; rfl
  | cons x hp ih =>
    intro hd k
    simp only [List.map_cons, List.flatten_cons]
    rw [assocGet_append, assocGet_append, ih (List.pairwise_cons.mp hd).2 k]
  | swap x y l =>
    intro hd k
    have hyx : ∀ k, k ∈ (f y).map Prod.fst → k ∉ (f x).map Prod.fst :=
      (List.pairwise_cons.mp hd).1 x (List.mem_cons_self x l)
    simp only [List.map_cons, List.flatten_cons]
    rw [assocGet_append, assocGet_append, assocGet_append, assocGet_append]
    cases hy : assocGet (f y) k with
    | some v =>
      have hky : k ∈ (f y).map Prod.fst := by
        rw [← assocGet_isSome_iff]
        simp [hy]
      have hkx : assocGet (f x) k = none :=
        (assocGet_eq_none_iff_keys _ _).mpr (hyx k hky)
      rw [hkx]
      simp
    | none => simp
  | trans hp1 hp2 ih1 ih2 =>
    intro hd k
    rw [ih1 hd k, ih2 ((hp1.pairwise_iff hsymm).mp hd) k]

theorem processChanges_context_only (label : String) (cs : List Change) (n o : Int)
    (a r : DecoMap) (h : ∀ c ∈ cs, c.type = "normal") :
    processChanges label cs n o a r = ⟨a, r, n + (cs.length : Int), o + (cs.length : Int)⟩ := by
  induction cs generalizing n o with
  | nil => simp [processChanges_nil]
  | cons c rest ih =>
    have hc : c.type = "normal" := h c (List.mem_cons_self _ _)
    rw [processChanges_cons_normal label rest n o a r hc,
      ih (n + 1) (o + 1) (fun c hc => h c (List.mem_cons_of_mem _ hc))]
    have hn : n + 1 + (rest.length : Int) = n + ((rest.length + 1 : Nat) : Int) := by
      push_cast; ring
    have ho : o + 1 + (rest.length : Int) = o + ((rest.length + 1 : Nat) : Int) := by
      push_cast; ring
    simp only [List.length_cons, hn, ho]

theorem addAttempts_keys_nonneg (label : String) (cs : List Change) (n : Int) :
    ∀ p ∈ addAttempts label cs n, 0 ≤ p.1 := by
  have H : ∀ (N : Nat) (cs : List Change) (n : Int), cs.length ≤ N →
      ∀ p ∈ addAttempts label cs n, 0 ≤ p.1 := by
    intro N
    induction N with
    | zero =>
      intro cs n hlen
      have hnil : cs = [] := List.length_eq_zero.mp (Nat.le_zero.mp hlen)
      subst hnil
      simp [addAttempts_nil]
    | succ N IH =>
      intro cs n hlen
      match cs with
      | [] => simp [addAttempts_nil]
      | c :: rest =>
        by_cases h1 : c.type = "add"
        · have hpos : isAddType c = true := by simp [isAddType, h1]
          have hlt : (List.dropWhile isAddType (c :: rest)).length ≤ N := by
            rw [List.dropWhile_cons_of_pos hpos]
            have := List.Sublist.length_le (List.dropWhile_sublist (l := rest) isAddType)
            simp only [List.length_cons] at hlen
            omega
          rw [addAttempts_cons_add label rest n h1]
          intro p hp
          rcases List.mem_append.mp hp with hmem | hmem
          · split at hmem
            · rename_i hg
              simp only [List.mem_singleton] at hmem
              subst hmem
              exact hg.1
            · simp at hmem
          · exact IH _ _ hlt p hmem
        · by_cases h2 : c.type = "del"
          · have hpos : isDelType c = true := by simp [isDelType, h2]
            have hlt : (List.dropWhile isDelType (c :: rest)).length ≤ N := by
              rw [List.dropWhile_cons_of_pos hpos]
              have := List.Sublist.length_le (List.dropWhile_sublist (l := rest) isDelType)
              simp only [List.length_cons] at hlen
              omega
            rw [addAttempts_cons_del label rest n h2]
            exact IH _ _ hlt
          · have hlt : rest.length ≤ N := by
              simp only [List.length_cons] at hlen
              omega
            by_cases h3 : c.type = "normal"
            · rw [addAttempts_cons_normal label rest n h3]
              exact IH _ _ hlt
            · rw [addAttempts_cons_other label rest n h1 h2 h3]
              exact IH _ _ hlt
  exact H cs.length cs n le_rfl

theorem remAttempts_keys_nonneg (label : String) (cs : List Change) (n : Int) :
    ∀ p ∈ remAttempts label cs n, 0 ≤ p.1 := by
  have H : ∀ (N : Nat) (cs : List Change) (n : Int), cs.length ≤ N →
      ∀ p ∈ remAttempts label cs n, 0 ≤ p.1 := by
    intro N
    induction N with
    | zero =>
      intro cs n hlen
      have hnil : cs = [] := List.length_eq_zero.mp (Nat.le_zero.mp hlen)
      subst hnil
      simp [remAttempts_nil]
    | succ N IH =>
      intro cs n hlen
      match cs with
      | [] => simp [remAttempts_nil]
      | c :: rest =>
        by_cases h1 : c.type = "add"
        · have hpos : isAddType c = true := by simp [isAddType, h1]
          have hlt : (List.dropWhile isAddType (c :: rest)).length ≤ N := by
            rw [List.dropWhile_cons_of_pos hpos]
            have := List.Sublist.length_le (List.dropWhile_sublist (l := rest) isAddType)
            simp only [List.length_cons] at hlen
            omega
          rw [remAttempts_cons_add label rest n h1]
          exact IH _ _ hlt
        · by_cases h2 : c.type = "del"
          · have hpos : isDelType c = true := by simp [isDelType, h2]
            have hlt : (List.dropWhile isDelType (c :: rest)).length ≤ N := by
              rw [List.dropWhile_cons_of_pos hpos]
              have := List.Sublist.length_le (List.dropWhile_sublist (l := rest) isDelType)
              simp only [List.length_cons] at hlen
              omega
            rw [remAttempts_cons_del label rest n h2]
            intro p hp
            rcases List.mem_append.mp hp with hmem | hmem
            · split at hmem
              · rename_i hg
                simp only [List.mem_singleton] at hmem
                subst hmem
                exact hg.1
              · simp at hmem
            · exact IH _ _ hlt p hmem
          · have hlt : rest.length ≤ N := by
              simp only [List.length_cons] at hlen
              omega
            by_cases h3 : c.type = "normal"
            · rw [remAttempts_cons_normal label rest n h3]
              exact IH _ _ hlt
            · rw [remAttempts_cons_other label rest n h1 h2 h3]
              exact IH _ _ hlt
  exact H cs.length cs n le_rfl

theorem addAttempts_all_add_nonpos (label : String) (cs : List Change) (n : Int)
    (hn : n ≤ 0) (hall : ∀ c ∈ cs, c.type = "add") :
    addAttempts label cs n = [] := by
  match cs with
  | [] => exact addAttempts_nil label n
  | c :: rest =>
    have hc : c.type = "add" := hall c (List.mem_cons_self _ _)
    rw [addAttempts_cons_add label rest n hc]
    have hdrop : List.dropWhile isAddType (c :: rest) = [] := by
      rw [List.dropWhile_eq_nil_iff]
      intro x hx
      simp [isAddType, hall x hx]
    rw [hdrop, addAttempts_nil]
    rw [if_neg (fun hg => absurd hg.1 (by omega))]
    rfl

theorem remAttempts_all_add (label : String) (cs : List Change) (n : Int)
    (hall : ∀ c ∈ cs, c.type = "add") :
    remAttempts label cs n = [] := by
  match cs with
  | [] => exact remAttempts_nil label n
  | c :: rest =>
    have hc : c.type = "add" := hall c (List.mem_cons_self _ _)
    rw [remAttempts_cons_add label rest n hc]
    have hdrop : List.dropWhile isAddType (c :: rest) = [] := by
      rw [List.dropWhile_eq_nil_iff]
      intro x hx
      simp [isAddType, hall x hx]
    rw [hdrop, remAttempts_nil]

theorem remAttempts_all_del_nonpos (label : String) (cs : List Change) (n : Int)
    (hn : n ≤ 0) (hall : ∀ c ∈ cs, c.type = "del") :
    remAttempts label cs n = [] := by
  match cs with
  | [] => exact remAttempts_nil label n
  | c :: rest =>
    have hc : c.type = "del" := hall c (List.mem_cons_self _ _)
    rw [remAttempts_cons_del label rest n hc]
    have hdrop : List.dropWhile isDelType (c :: rest) = [] := by
      rw [List.dropWhile_eq_nil_iff]
      intro x hx
      simp [isDelType, hall x hx]
    rw [hdrop, remAttempts_nil]
    rw [if_neg (fun hg => absurd hg.1 (by omega))]
    rfl

theorem addAttempts_all_del (label : String) (cs : List Change) (n : Int)
    (hall : ∀ c ∈ cs, c.type = "del") :
    addAttempts label cs n = [] := by
  match cs with
  | [] => exact addAttempts_nil label n
  | c :: rest =>
    have hc : c.type = "del" := hall c (List.mem_cons_self _ _)
    have hnadd : ¬ (c.type = "add") := by rw [hc]; intro hcc; exact absurd hcc (by decide)
    rw [addAttempts_cons_del label rest n hc]
    have hdrop : List.dropWhile isDelType (c :: rest) = [] := by
      rw [List.dropWhile_eq_nil_iff]
      intro x hx
      simp [isDelType, hall x hx]
    rw [hdrop, addAttempts_nil]

theorem foldl_processEntry_sentinel (resolve : String → Option String) (label : String)
    (es : List DiffFileEntry) (fm : FileMap) (h : ∀ e ∈ es, effTarget e = none) :
    es.foldl (processEntry resolve label) fm = fm := by
  induction es generalizing fm with
  | nil => rfl
  | cons e es ih =>
    have he : effTarget e = none := h e (List.mem_cons_self _ _)
    have hstep : processEntry resolve label fm e = fm := by
      unfold processEntry
      rw [he]
    show es.foldl (processEntry resolve label) (processEntry resolve label fm e) = fm
    rw [hstep, ih fm (fun e he => h e (List.mem_cons_of_mem _ he))]

theorem scanAnnotate_sentinel (resolve : String → Option String)
    (inputs : List TayloredFile)
    (h : ∀ tf ∈ inputs, ∀ e ∈ tf.files, effTarget e = none) :
    scanAnnotate resolve inputs = [] := by
  unfold scanAnnotate
  have H : ∀ (tfs : List TayloredFile) (fm : FileMap),
      (∀ tf ∈ tfs, ∀ e ∈ tf.files, effTarget e = none) →
      tfs.foldl (processTayloredFile resolve) fm = fm := by
    intro tfs
    induction tfs with
    | nil => intro fm _; rfl
    | cons tf tfs ih =>
      intro fm hall
      show tfs.foldl (processTayloredFile resolve) (processTayloredFile resolve fm tf) = fm
      have hstep : processTayloredFile resolve fm tf = fm :=
        foldl_processEntry_sentinel resolve tf.name tf.files fm
          (hall tf (List.mem_cons_self _ _))
      rw [hstep, ih fm (fun tf htf => hall tf (List.mem_cons_of_mem _ htf))]
  exact H inputs [] h

/-! Concrete sample data used by counterexamples and witnesses. -/

def ctxChange : Change := ⟨"normal", "ctx"⟩
def addChange : Change := ⟨"add", "plus"⟩
def delChange : Change := ⟨"del", "minus"⟩

/-- The hunk of the spec block-collapsing example: changes
[context, add, add, add, delete, delete, context], oldStart 10,
newStart 10. -/
def demoHunk : Hunk :=
  ⟨10, 10, [ctxChange, addChange, addChange, addChange, delChange, delChange, ctxChange]⟩

def demoEntry : DiffFileEntry := ⟨some "b/foo.txt", some "a/foo.txt", [demoHunk]⟩

def demoInput : List TayloredFile := [⟨"demo.taylored", [demoEntry]⟩]

def demoResolve : String → Option String := fun s => some s

/-- C1: counterexample.  The claim expects the added annotation at
zero-based index 9 and the removed annotation at index 12 for the spec
example hunk; running the scan on exactly that hunk leaves both of
those indices unannotated, because the leading context change advances
the new-line counter to 11 before the add run is consumed. -/
theorem C1_counterexample :
    assocGet (annAt (scanAnnotate demoResolve demoInput) "foo.txt").1 9 = none ∧
    assocGet (annAt (scanAnnotate demoResolve demoInput) "foo.txt").2 12 = none := by
  have hscan : scanAnnotate demoResolve demoInput =
      [("foo.txt", ([(10, ⟨3, "demo.taylored"⟩)], [(13, ⟨2, "demo.taylored"⟩)]))] := by
    simp [scanAnnotate, processTayloredFile, processEntry, effTarget, rawTarget, jsTruthy,
      cleanPath, demoResolve, demoInput, demoEntry, demoHunk, processChunks, processChunk,
      processChanges, insertIfAbsent, assocGet, assocReplace, foldIns, isAddType, isDelType,
      ctxChange, addChange, delChange, List.takeWhile, List.dropWhile]
  rw [hscan]
  constructor <;> simp [annAt, assocGet]

/-- C1: the amended claim.  For the spec example hunk (changes
[context, add, add, add, delete, delete, context], oldStart 10,
newStart 10) processed alone against one target file, the scan produces
exactly one added annotation, at zero-based index 10 with blockLength
3, and exactly one removed annotation, at zero-based index 13 with
blockLength 2: the leading context change advances the new-line counter
to 11, the add-run anchor is 11 - 1 = 10, the three adds advance the
counter to 14, and the delete-run anchor is 14 - 1 = 13. -/
theorem C1_block_collapsing :
    scanAnnotate demoResolve demoInput =
      [("foo.txt", ([(10, ⟨3, "demo.taylored"⟩)], [(13, ⟨2, "demo.taylored"⟩)]))] := by
  simp [scanAnnotate, processTayloredFile, processEntry, effTarget, rawTarget, jsTruthy,
    cleanPath, demoResolve, demoInput, demoEntry, demoHunk, processChunks, processChunk,
    processChanges, insertIfAbsent, assocGet, assocReplace, foldIns, isAddType, isDelType,
    ctxChange, addChange, delChange, List.takeWhile, List.dropWhile]

theorem countersAfter_cons (c : Change) (rest : List Change) (n o : Int) :
    countersAfter (c :: rest) n o =
      if c.type = "add" then countersAfter rest (n + 1) o
      else if c.type = "del" then countersAfter rest n (o + 1)
      else if c.type = "normal" then countersAfter rest (n + 1) (o + 1)
      else countersAfter rest n o := rfl

theorem countersAfter_closed (cs : List Change) (n o : Int) :
    countersAfter cs n o =
      (n + ((cs.countP isNormalType + cs.countP isAddType : Nat) : Int),
       o + ((cs.countP isNormalType + cs.countP isDelType : Nat) : Int)) := by
  induction cs generalizing n o with
  | nil => simp [countersAfter]
  | cons c rest ih =>
    rw [countersAfter_cons]
    by_cases h1 : c.type = "add"
    · have e1 : isAddType c = true := by simp [isAddType, h1]
      have e2 : isDelType c = false := by simp [isDelType, h1]
      have e3 : isNormalType c = false := by simp [isNormalType, h1]
      rw [if_pos h1, ih]
      simp only [List.countP_cons, e1, e2, e3, Prod.mk.injEq]
      norm_num
      all_goals omega
    · by_cases h2 : c.type = "del"
      · have e1 : isAddType c = false := by simp [isAddType, h2]
        have e2 : isDelType c = true := by simp [isDelType, h2]
        have e3 : isNormalType c = false := by simp [isNormalType, h2]
        rw [if_neg h1, if_pos h2, ih]
        simp only [List.countP_cons, e1, e2, e3, Prod.mk.injEq]
        norm_num
        all_goals omega
      · by_cases h3 : c.type = "normal"
        · have e1 : isAddType c = false := by simp [isAddType, h3]
          have e2 : isDelType c = false := by simp [isDelType, h3]
          have e3 : isNormalType c = true := by simp [isNormalType, h3]
          rw [if_neg h1, if_neg h2, if_pos h3, ih]
          simp only [List.countP_cons, e1, e2, e3, Prod.mk.injEq]
          norm_num
          all_goals omega
        · have e1 : isAddType c = false := by simp [isAddType, h1]
          have e2 : isDelType c = false := by simp [isDelType, h2]
          have e3 : isNormalType c = false := by simp [isNormalType, h3]
          rw [if_neg h1, if_neg h2, if_neg h3, ih]
          simp only [List.countP_cons, e1, e2, e3, Prod.mk.injEq]
          norm_num

/-- C2: within one hunk the counter bookkeeping is an invariant of the
walk: for every prefix of the changes, the per-change counter fold
gives newStart plus the number of context and add changes of the
prefix as the new counter, and oldStart plus the number of context and
delete changes as the old counter; and the run-collapsing loop of the
code finishes with exactly the counters of that per-change fold over
all changes. -/
theorem C2_counter_invariant (label : String) (h : Hunk) (k : Nat) (a r : DecoMap) :
    countersAfter (h.changes.take k) h.newStart h.oldStart =
      (h.newStart + (((h.changes.take k).countP isNormalType +
          (h.changes.take k).countP isAddType : Nat) : Int),
       h.oldStart + (((h.changes.take k).countP isNormalType +
          (h.changes.take k).countP isDelType : Nat) : Int)) ∧
    (processChanges label h.changes h.newStart h.oldStart a r).newC =
      (countersAfter h.changes h.newStart h.oldStart).1 ∧
    (processChanges label h.changes h.newStart h.oldStart a r).oldC =
      (countersAfter h.changes h.newStart h.oldStart).2 := by
  refine ⟨countersAfter_closed _ _ _, ?_, ?_⟩ <;> rw [processChanges_decomp]

/-- C3: first-wins deduplication across the whole input: for every
target URI and line index, each of the two final maps holds at most one
binding for that index, and its value is exactly the first insertion
attempt aimed at that index in processing order, across all hunks of
all entries of all .taylored files — later attempts are dropped, never
merged. -/
theorem C3_first_wins (resolve : String → Option String) (inputs : List TayloredFile)
    (uri : String) (k : Int) :
    keyCount (annAt (scanAnnotate resolve inputs) uri).1 k ≤ 1 ∧
    keyCount (annAt (scanAnnotate resolve inputs) uri).2 k ≤ 1 ∧
    assocGet (annAt (scanAnnotate resolve inputs) uri).1 k =
      assocGet (fileAddAttempts resolve inputs uri) k ∧
    assocGet (annAt (scanAnnotate resolve inputs) uri).2 k =
      assocGet (fileRemAttempts resolve inputs uri) k := by
  rw [annAt_scanAnnotate]
  refine ⟨keyCount_foldIns_le _ _ _ (by simp [keyCount]),
    keyCount_foldIns_le _ _ _ (by simp [keyCount]), ?_, ?_⟩ <;>
    (rw [assocGet_foldIns]; simp [assocGet])

/-- C4: counterexample.  The claim says a block whose computed anchor
is negative or zero is discarded; but a hunk with newStart 1 whose only
change is an add computes anchor 1 - 1 = 0 and the code records the
annotation at index 0 instead of discarding it. -/
theorem C4_counterexample :
    (processChanges "demo.taylored" [addChange] 1 5 [] []).adds =
      [(0, ⟨1, "demo.taylored"⟩)] := by
  simp [processChanges, addChange, isAddType, isDelType, insertIfAbsent, assocGet,
    List.takeWhile, List.dropWhile]

/-- C4: the amended claim.  A block whose computed anchor (captured
new-line counter minus 1) is negative is discarded: every binding of
the final maps produced from empty maps sits at a nonnegative index,
and a hunk made of a single add run (resp. delete run) whose captured
counter is nonpositive, hence whose anchor is negative, yields no
annotation at any line — in particular the anchor is not clamped to 0.
Blocks with anchor exactly 0 are recorded, not discarded. -/
theorem C4_negative_anchor_discarded :
    (∀ (label : String) (h : Hunk) (p : Int × Decoration),
       (p ∈ (processChanges label h.changes h.newStart h.oldStart [] []).adds → 0 ≤ p.1) ∧
       (p ∈ (processChanges label h.changes h.newStart h.oldStart [] []).removes → 0 ≤ p.1)) ∧
    (∀ (label : String) (cs : List Change) (n o : Int), n ≤ 0 →
       (∀ c ∈ cs, c.type = "add") →
       (processChanges label cs n o [] []).adds = [] ∧
       (processChanges label cs n o [] []).removes = []) ∧
    (∀ (label : String) (cs : List Change) (n o : Int), n ≤ 0 →
       (∀ c ∈ cs, c.type = "del") →
       (processChanges label cs n o [] []).adds = [] ∧
       (processChanges label cs n o [] []).removes = []) := by
  refine ⟨?_, ?_, ?_⟩
  · intro label h p
    rw [processChanges_decomp]
    constructor
    · intro hp
      rcases mem_foldIns _ _ hp with hmem | hmem
      · simp at hmem
      · exact addAttempts_keys_nonneg _ _ _ p hmem
    · intro hp
      rcases mem_foldIns _ _ hp with hmem | hmem
      · simp at hmem
      · exact remAttempts_keys_nonneg _ _ _ p hmem
  · intro label cs n o hn hall
    rw [processChanges_decomp]
    rw [addAttempts_all_add_nonpos label cs n hn hall, remAttempts_all_add label cs n hall]
    exact ⟨rfl, rfl⟩
  · intro label cs n o hn hall
    rw [processChanges_decomp]
    rw [addAttempts_all_del label cs n hall, remAttempts_all_del_nonpos label cs n hn hall]
    exact ⟨rfl, rfl⟩

/-- C4: witness for the amended claim at concrete inputs: a single add
run and a single delete run with captured counter 0 (anchor -1)
produce empty maps. -/
theorem C4_negative_anchor_discarded_witness :
    ((processChanges "demo.taylored" [addChange] 0 5 [] []).adds = [] ∧
     (processChanges "demo.taylored" [addChange] 0 5 [] []).removes = []) ∧
    ((processChanges "demo.taylored" [delChange] 0 5 [] []).adds = [] ∧
     (processChanges "demo.taylored" [delChange] 0 5 [] []).removes = []) :=
  ⟨C4_negative_anchor_discarded.2.1 "demo.taylored" [addChange] 0 5 (by decide)
      (by intro c hc; simp only [List.mem_singleton] at hc; rw [hc]; rfl),
   C4_negative_anchor_discarded.2.2 "demo.taylored" [delChange] 0 5 (by decide)
      (by intro c hc; simp only [List.mem_singleton] at hc; rw [hc]; rfl)⟩

/-- C5: a hunk with newStart 1 whose first change is an add records an
added annotation at zero-based index 0 — the anchor 1 - 1 = 0 is a
valid nonnegative index and is not discarded; the recorded value is the
leading add-run length with the source label. -/
theorem C5_leading_addition (label : String) (h : Hunk) (c : Change) (rest : List Change)
    (hns : h.newStart = 1) (hcs : h.changes = c :: rest) (hc : c.type = "add") :
    assocGet (processChanges label h.changes h.newStart h.oldStart [] []).adds 0 =
      some ⟨(List.takeWhile isAddType h.changes).length, label⟩ := by
  rw [processChanges_decomp]
  show assocGet (foldIns [] (addAttempts label h.changes h.newStart)) 0 = _
  rw [assocGet_foldIns, hcs, hns]
  rw [addAttempts_cons_add label rest 1 hc]
  have hlen : 0 < (List.takeWhile isAddType (c :: rest)).length := by
    rw [List.takeWhile_cons_of_pos (by simp [isAddType, hc])]
    simp
  rw [if_pos ⟨by norm_num, hlen⟩]
  simp [assocGet]

/-- C5: witness at a concrete hunk with newStart 1 and a single leading
add change. -/
theorem C5_leading_addition_witness :
    assocGet (processChanges "demo.taylored" [addChange] 1 5 [] []).adds 0 =
      some ⟨(List.takeWhile isAddType [addChange]).length, "demo.taylored"⟩ :=
  C5_leading_addition "demo.taylored" ⟨5, 1, [addChange]⟩ addChange [] rfl rfl rfl

/-- C6: the Annotator is a pure, deterministic function of its parsed
input: two runs of the scan on equal input lists (with the same
resolution collaborator) produce equal result maps. -/
theorem C6_deterministic (resolve : String → Option String)
    (inputs1 inputs2 : List TayloredFile) (h : inputs1 = inputs2) :
    scanAnnotate resolve inputs1 = scanAnnotate resolve inputs2 := by
  rw [h]

/-- C6: witness at the concrete demo input. -/
theorem C6_deterministic_witness :
    scanAnnotate demoResolve demoInput = scanAnnotate demoResolve demoInput :=
  C6_deterministic demoResolve demoInput demoInput rfl

/-- Two hunks aim their added (resp. removed) insertion attempts at
disjoint sets of line indices. -/
def hunksDisjoint (label : String) (h1 h2 : Hunk) : Prop :=
  (∀ k, k ∈ (hunkAddAttempts label h1).map Prod.fst →
     k ∉ (hunkAddAttempts label h2).map Prod.fst) ∧
  (∀ k, k ∈ (hunkRemAttempts label h1).map Prod.fst →
     k ∉ (hunkRemAttempts label h2).map Prod.fst)

/-- C7: permuting hunks whose annotation targets are pairwise disjoint
leaves every lookup of the per-target maps unchanged; and when blocks
from different hunks target the same line and kind, the hunk processed
first keeps its annotation: with the key fresh in the accumulator, the
final value at that key is exactly the first attempt of the
first-processed hunk. -/
theorem C7_hunk_order (label : String) :
    (∀ (hs hs' : List Hunk) (acc : FilePair), hs.Perm hs' →
       hs.Pairwise (hunksDisjoint label) →
       ∀ k, assocGet (processChunks label acc hs).1 k =
              assocGet (processChunks label acc hs').1 k ∧
            assocGet (processChunks label acc hs).2 k =
              assocGet (processChunks label acc hs').2 k) ∧
    (∀ (h1 : Hunk) (hs : List Hunk) (acc : FilePair) (k : Int),
       k ∈ (hunkAddAttempts label h1).map Prod.fst → assocGet acc.1 k = none →
       assocGet (processChunks label acc (h1 :: hs)).1 k =
         assocGet (hunkAddAttempts label h1) k) ∧
    (∀ (h1 : Hunk) (hs : List Hunk) (acc : FilePair) (k : Int),
       k ∈ (hunkRemAttempts label h1).map Prod.fst → assocGet acc.2 k = none →
       assocGet (processChunks label acc (h1 :: hs)).2 k =
         assocGet (hunkRemAttempts label h1) k) := by
  refine ⟨?_, ?_, ?_⟩
  · intro hs hs' acc hp hd k
    rw [processChunks_decomp, processChunks_decomp]
    constructor
    · show (assocGet (foldIns acc.1 _) k) = (assocGet (foldIns acc.1 _) k)
      rw [assocGet_foldIns, assocGet_foldIns,
        assocGet_flatten_perm (hunkAddAttempts label) hp
          (hd.imp (fun hh => hh.1)) k]
    · show (assocGet (foldIns acc.2 _) k) = (assocGet (foldIns acc.2 _) k)
      rw [assocGet_foldIns, assocGet_foldIns,
        assocGet_flatten_perm (hunkRemAttempts label) hp
          (hd.imp (fun hh => hh.2)) k]
  · intro h1 hs acc k hk hfresh
    rw [processChunks_decomp]
    show (assocGet (foldIns acc.1 _) k) = _
    rw [assocGet_foldIns, hfresh]
    simp only [List.map_cons, List.flatten_cons, Option.none_or]
    rw [assocGet_append]
    rcases Option.isSome_iff_exists.mp ((assocGet_isSome_iff _ _).mpr hk) with ⟨v, hv⟩
    rw [hv]
    rfl
  · intro h1 hs acc k hk hfresh
    rw [processChunks_decomp]
    show (assocGet (foldIns acc.2 _) k) = _
    rw [assocGet_foldIns, hfresh]
    simp only [List.map_cons, List.flatten_cons, Option.none_or]
    rw [assocGet_append]
    rcases Option.isSome_iff_exists.mp ((assocGet_isSome_iff _ _).mpr hk) with ⟨v, hv⟩
    rw [hv]
    rfl

/-- C7: witness — two single-add hunks targeting lines 0 and 4 can be
swapped without changing the lookup at line 0, and the first-processed
hunk keeps line 0. -/
theorem C7_hunk_order_witness :
    assocGet (processChunks "demo.taylored" ([], [])
        [⟨1, 1, [addChange]⟩, ⟨5, 5, [addChange]⟩]).1 0 =
      assocGet (processChunks "demo.taylored" ([], [])
        [⟨5, 5, [addChange]⟩, ⟨1, 1, [addChange]⟩]).1 0 :=
  ((C7_hunk_order "demo.taylored").1
    [⟨1, 1, [addChange]⟩, ⟨5, 5, [addChange]⟩]
    [⟨5, 5, [addChange]⟩, ⟨1, 1, [addChange]⟩]
    ([], [])
    (List.Perm.swap (⟨5, 5, [addChange]⟩ : Hunk) (⟨1, 1, [addChange]⟩ : Hunk) [])
    (by
      refine List.Pairwise.cons ?_ (List.Pairwise.cons (by simp) List.Pairwise.nil)
      intro b hb
      simp only [List.mem_singleton] at hb
      subst hb
      constructor
      · intro k hk1 hk2
        simp [hunkAddAttempts, addAttempts, addChange, isAddType, isDelType,
          List.takeWhile, List.dropWhile] at hk1 hk2
        omega
      · intro k hk1 hk2
        simp [hunkRemAttempts, remAttempts, addChange, isAddType, isDelType,
          List.takeWhile, List.dropWhile] at hk1)
    0).1

/-- C8: a hunk consisting solely of context changes produces no
annotations of either kind and finishes with both counters equal to
their start plus the number of changes. -/
theorem C8_context_only (label : String) (h : Hunk) (a r : DecoMap)
    (hall : ∀ c ∈ h.changes, c.type = "normal") :
    processChanges label h.changes h.newStart h.oldStart a r =
      ⟨a, r, h.newStart + (h.changes.length : Int), h.oldStart + (h.changes.length : Int)⟩ :=
  processChanges_context_only label h.changes h.newStart h.oldStart a r hall

/-- C8: witness at a concrete two-context hunk. -/
theorem C8_context_only_witness :
    processChanges "demo.taylored" [ctxChange, ctxChange] 7 3 [] [] = ⟨[], [], 9, 5⟩ :=
  C8_context_only "demo.taylored" ⟨3, 7, [ctxChange, ctxChange]⟩ [] []
    (by
      intro c hc
      simp only [List.mem_cons, List.not_mem_nil, or_false] at hc
      rcases hc with h | h <;> (rw [h]; rfl))

/-- C9: the Annotator never fails on empty input: an empty input list
yields the empty result map, a list whose entries all have the no-file
effective target (no truthy path, or /dev/null) yields the empty result
map, and a hunk with zero changes leaves maps and counters untouched. -/
theorem C9_empty_input :
    (∀ resolve : String → Option String, scanAnnotate resolve [] = []) ∧
    (∀ (resolve : String → Option String) (inputs : List TayloredFile),
       (∀ tf ∈ inputs, ∀ e ∈ tf.files, effTarget e = none) →
       scanAnnotate resolve inputs = []) ∧
    (∀ (label : String) (n o : Int) (a r : DecoMap),
       processChanges label [] n o a r = ⟨a, r, n, o⟩) :=
  ⟨fun _ => rfl,
   fun resolve inputs h => scanAnnotate_sentinel resolve inputs h,
   fun label n o a r => processChanges_nil label n o a r⟩

/-- C9: witness — a file whose entries have no paths or /dev/null as
target yields the empty map. -/
theorem C9_empty_input_witness :
    scanAnnotate demoResolve
      [⟨"s.taylored", [⟨none, none, [demoHunk]⟩, ⟨some "/dev/null", none, [demoHunk]⟩]⟩] = [] :=
  C9_empty_input.2.1 demoResolve
    [⟨"s.taylored", [⟨none, none, [demoHunk]⟩, ⟨some "/dev/null", none, [demoHunk]⟩]⟩]
    (by decide)

/-- C10: each iteration of the walk makes strict progress, so the
computation is total: an add run is consumed whole (at least one
change, since the takeWhile block is nonempty), advancing only the new
counter by the run length and recording at most one annotation; a
delete run symmetrically; a context change is consumed alone advancing
both counters; a change of any other type is consumed alone without
touching counters or maps.  In every case the remaining change list is
strictly shorter. -/
theorem C10_progress (label : String) (c : Change) (rest : List Change) (n o : Int)
    (a r : DecoMap) :
    (c.type = "add" →
      processChanges label (c :: rest) n o a r =
        processChanges label (List.dropWhile isAddType (c :: rest))
          (n + ((List.takeWhile isAddType (c :: rest)).length : Int)) o
          (if 0 ≤ n - 1 ∧ 0 < (List.takeWhile isAddType (c :: rest)).length
           then insertIfAbsent a (n - 1)
             ⟨(List.takeWhile isAddType (c :: rest)).length, label⟩
           else a) r ∧
        (List.dropWhile isAddType (c :: rest)).length < (c :: rest).length ∧
        0 < (List.takeWhile isAddType (c :: rest)).length) ∧
    (c.type = "del" →
      processChanges label (c :: rest) n o a r =
        processChanges label (List.dropWhile isDelType (c :: rest)) n
          (o + ((List.takeWhile isDelType (c :: rest)).length : Int)) a
          (if 0 ≤ n - 1 ∧ 0 < (List.takeWhile isDelType (c :: rest)).length
           then insertIfAbsent r (n - 1)
             ⟨(List.takeWhile isDelType (c :: rest)).length, label⟩
           else r) ∧
        (List.dropWhile isDelType (c :: rest)).length < (c :: rest).length ∧
        0 < (List.takeWhile isDelType (c :: rest)).length) ∧
    (c.type = "normal" →
      processChanges label (c :: rest) n o a r =
        processChanges label rest (n + 1) (o + 1) a r ∧
      rest.length < (c :: rest).length) ∧
    (c.type ≠ "add" → c.type ≠ "del" → c.type ≠ "normal" →
      processChanges label (c :: rest) n o a r = processChanges label rest n o a r ∧
      rest.length < (c :: rest).length) := by
  refine ⟨?_, ?_, ?_, ?_⟩
  · intro h1
    have hpos : isAddType c = true := by simp [isAddType, h1]
    refine ⟨processChanges_cons_add label rest n o a r h1, ?_, ?_⟩
    · rw [List.dropWhile_cons_of_pos hpos]
      have := List.Sublist.length_le (List.dropWhile_sublist (l := rest) isAddType)
      simp only [List.length_cons]
      omega
    · rw [List.takeWhile_cons_of_pos hpos]
      simp
  · intro h2
    have hpos : isDelType c = true := by simp [isDelType, h2]
    refine ⟨processChanges_cons_del label rest n o a r h2, ?_, ?_⟩
    · rw [List.dropWhile_cons_of_pos hpos]
      have := List.Sublist.length_le (List.dropWhile_sublist (l := rest) isDelType)
      simp only [List.length_cons]
      omega
    · rw [List.takeWhile_cons_of_pos hpos]
      simp
  · intro h3
    exact ⟨processChanges_cons_normal label rest n o a r h3, by simp⟩
  · intro h1 h2 h3
    exact ⟨processChanges_cons_other label rest n o a r h1 h2 h3, by simp⟩

/-- C10: witness — the add case at a concrete two-change list. -/
theorem C10_progress_witness :
    processChanges "demo.taylored" [addChange, ctxChange] 4 9 [] [] =
      processChanges "demo.taylored" (List.dropWhile isAddType [addChange, ctxChange])
        (4 + ((List.takeWhile isAddType [addChange, ctxChange]).length : Int)) 9
        (if 0 ≤ (4 : Int) - 1 ∧ 0 < (List.takeWhile isAddType [addChange, ctxChange]).length
         then insertIfAbsent [] ((4 : Int) - 1)
           ⟨(List.takeWhile isAddType [addChange, ctxChange]).length, "demo.taylored"⟩
         else []) [] ∧
    (List.dropWhile isAddType [addChange, ctxChange]).length <
      ([addChange, ctxChange] : List Change).length ∧
    0 < (List.takeWhile isAddType [addChange, ctxChange]).length :=
  (C10_progress "demo.taylored" addChange [ctxChange] 4 9 [] []).1 rfl

end TayloredVCode
